import Mathlib

/-!
Verification of the QuantumOS BIOS boot stage-1 C core
(`src/quantum_boot/src/bios_boot/stage-1/src/c/{start.c, core_ops.c}`).

Memory is modelled as a total function from byte addresses (`Nat`) to byte
values (`Nat`); the 32-bit machine arithmetic of the C code is made explicit
(`u32sub` is the wrapping unsigned subtraction) where it can overflow.
All definitions are computable translations of the C source.
-/

namespace QuantumBoot

/-- Byte-addressable memory: address to byte value. -/
abbrev Mem := Nat → Nat

/-- Point update of a memory/buffer (the effect of a single C store). -/
def updB (m : Mem) (a v : Nat) : Mem :=
  fun x => if x = a then v else m x

/-- Wrapping unsigned 32-bit subtraction, for operands below `2 ^ 32`
(`u32 loader_size = loader_end - loader_start` in `start.c`). -/
def u32sub (a b : Nat) : Nat :=
  (a + 2 ^ 32 - b) % 2 ^ 32

/-! ## core_ops.c -/

/-- `memcpy(dest, src, n)` from core_ops.c: the loop
`for (i = 0; i < n; i++) cdest[i] = csrc[i];`, one sequential byte store per
iteration, offset `n-1` stored last. -/
def memcpy (m : Mem) (dest src : Nat) : Nat → Mem
  | 0 => m
  | n + 1 =>
    let m' := memcpy m dest src n
    updB m' (dest + n) (m' (src + n))

/-- The `while(num > 0){ count++; num = num/10; }` loop of `digit_count`. -/
def digit_count_loop (num count : Nat) : Nat :=
  if num = 0 then count else digit_count_loop (num / 10) (count + 1)
  termination_by num
  decreasing_by exact Nat.div_lt_self (Nat.pos_of_ne_zero (by assumption)) (by decide)

/-- `digit_count(num)` from core_ops.c. -/
def digit_count (num : Nat) : Nat :=
  if num = 0 then 1 else digit_count_loop num 0

/-- The `while(num != 0)` loop of `itoa`: stores `num % 10 + '0'` at `index`,
then continues with `num / 10` at `index - 1`.  (In C `index` is a `u32`; its
final decrement past 0 is never observed because the loop runs exactly
`digit_count num` times, so natural truncation agrees with the source.) -/
def itoaLoop (buf : Mem) (num index : Nat) : Mem :=
  if num = 0 then buf
  else itoaLoop (updB buf index (num % 10 + 48)) (num / 10) (index - 1)
  termination_by num
  decreasing_by exact Nat.div_lt_self (Nat.pos_of_ne_zero (by assumption)) (by decide)

/-- `itoa(num, number)` from core_ops.c: the zero special case writes
`'0', '\0'`; otherwise the digit loop runs and `number[dgcount] = '\0'`. -/
def itoa (num : Nat) (number : Mem) : Mem :=
  if num = 0 ∧ digit_count num = 1 then
    updB (updB number 0 48) 1 0
  else
    updB (itoaLoop number num (digit_count num - 1)) (digit_count num) 0

/-- `strlen`'s scan for the first null byte, fuel-bounded.  The stage only
applies it to the 32-byte `num_str` buffer, which is pre-zeroed and receives
at most 10 digits plus a terminator, so fuel 32 always suffices. -/
def strlenAux (buf : Mem) (i : Nat) : Nat → Nat
  | 0 => i
  | fuel + 1 => if buf i = 0 then i else strlenAux buf (i + 1) fuel

/-- `strlen(str)` from core_ops.c, on the stage's 32-byte buffer. -/
def strlen (buf : Mem) : Nat :=
  strlenAux buf 0 32

/-! ## start.c: sentinel scanner -/

/-- The start-sentinel test of the scan loop:
`(p[i] == 0x21 && p[i+1] == 0x73) || (p[i] == 0x73 && p[i+1] == 0x21)`. -/
def startMatch (img : Mem) (i : Nat) : Bool :=
  (img i == 0x21 && img (i + 1) == 0x73) || (img i == 0x73 && img (i + 1) == 0x21)

/-- The end-sentinel test of the scan loop:
`(p[i] == 0xbe && p[i+1] == 0xef) || (p[i] == 0xef && p[i+1] == 0xbe)`. -/
def endMatch (img : Mem) (i : Nat) : Bool :=
  (img i == 0xbe && img (i + 1) == 0xef) || (img i == 0xef && img (i + 1) == 0xbe)

/-- Result of the scan loop: the final `loader_start` / `loader_end` values
and whether the `i >= 0xFFFF` bound fired (the "Poop" branch). -/
structure ScanResult where
  loader_start : Nat
  loader_end : Nat
  boundHit : Bool
deriving DecidableEq, Repr

/-- One body of `for (u32 i = 0;; i++)` in `cmain`: the start test updates
`loader_start` and falls through, the end test records `loader_end` and
breaks, and only afterwards is the `i >= 0xFFFF` bound checked (breaking with
`loader_end` still at its initial 0).  `fuel` is only a termination device:
with `fuel = 0x10000 - i` the fuel-0 arm is unreachable, because the bound
check exits at `i = 0xFFFF` with one unit of fuel left. -/
def scanLoop (img : Mem) (i ls : Nat) : Nat → ScanResult
  | 0 => ⟨ls, 0, true⟩
  | fuel + 1 =>
    let ls' := if startMatch img i then i else ls
    if endMatch img i then ⟨ls', i, false⟩
    else if i ≥ 0xFFFF then ⟨ls', 0, true⟩
    else scanLoop img (i + 1) ls' fuel

/-- The whole sentinel scan of `cmain`, starting at offset 0 with
`loader_start = loader_end = 0`. -/
def cmainScan (img : Mem) : ScanResult :=
  scanLoop img 0 0 (2 ^ 16)

/-- The value `loader_start` holds after the scan has processed offsets
`0..e`: the largest `i ≤ e` with a start-sentinel match, or 0 when none
matched (the loop variable's initial value). -/
def lastStartLe (img : Mem) : Nat → Nat
  | 0 => 0
  | n + 1 => if startMatch img (n + 1) then n + 1 else lastStartLe img n

/-- The fold the scan loop performs on `loader_start` while processing the
`k` offsets `i, i+1, ..., i+k-1` starting from value `ls`. -/
def lsRun (img : Mem) (ls i : Nat) : Nat → Nat
  | 0 => ls
  | k + 1 => lsRun img (if startMatch img i then i else ls) (i + 1) k

/-- Specification-side predicate: `s` is the last offset `≤ e` at which a
start sentinel matched, or 0 when no start sentinel matched at any offset
`≤ e`. -/
def IsLastStart (img : Mem) (e s : Nat) : Prop :=
  (startMatch img s = true ∧ s ≤ e ∧ ∀ j, j ≤ e → startMatch img j = true → j ≤ s) ∨
  ((∀ j, j ≤ e → startMatch img j = false) ∧ s = 0)

/-! ## start.c: diagnostics and the whole-stage trace -/

/-- The zeroed `num_str` buffer: `char num_str[32]; memset(num_str, 0, 32);`
(only indices below 32 are ever read or written, all zero after memset). -/
def zeroBuf : Mem := fun _ => 0

/-- The characters printed for one value: `itoa(v, num_str)` into the zeroed
buffer followed by `for (i = 0; i < strlen(num_str); i++) put(num_str[i])`. -/
def itoaOut (v : Nat) : List Nat :=
  (List.range (strlen (itoa v zeroBuf))).map (itoa v zeroBuf)

/-- Parsing a list of ASCII digit bytes back as an unsigned decimal. -/
def parseDec (ds : List Nat) : Nat :=
  ds.foldl (fun acc d => acc * 10 + (d - 48)) 0

/-- VGA character emission: each `*(vga_address += 2) = c` advances the
cursor by 2 and then stores `c` there.  Returns the final cursor (the
address of the last cell written) and the list of (address, byte) stores. -/
def writeSeq (cur : Nat) : List Nat → Nat × List (Nat × Nat)
  | [] => (cur, [])
  | b :: bs =>
    let r := writeSeq (cur + 2) bs
    (r.1, (cur + 2, b) :: r.2)

/-- The bytes `cmain` emits after the scan loop:
`"S: "`, the decimal form of `loader_start`, `"  E: "`, the decimal form of
`loader_end`, `"  "`. -/
def postScanBytes (ls le : Nat) : List Nat :=
  [83, 58, 32] ++ itoaOut ls ++ [32, 32, 69, 58, 32] ++ itoaOut le ++ [32, 32]

/-- ASCII codes of a string literal, for readable statements. -/
def byteStr (s : String) : List Nat :=
  s.toList.map Char.toNat

/-- Observable behaviour of one `cmain(addr)` run over image `img`:
the emitted diagnostic byte stream and its VGA stores, the scan result, the
`memcpy` relocation request and the resulting memory, the relocated
self-test's store (`test()` writes `'q'` at the current cursor and advances
by 1), and the argument handed to `switch_to_rust`. -/
structure CmainTrace where
  diagBytes : List Nat
  diagWrites : List (Nat × Nat)
  scan : ScanResult
  copyDest : Nat
  copySrc : Nat
  copyLen : Nat
  postMem : Mem
  selfTestWrite : Nat × Nat
  handoffArg : Nat

/-- Shallow embedding of `cmain(addr)` from start.c over image `img`
(`addr` is the firmware-supplied 32-bit argument).  In source order: render
`addr`; scan (emitting `"Poop"` inside the loop iff the bound fired); emit
the bounds diagnostics; `loader_size = loader_end - loader_start` (wrapping
u32); `memcpy(0x10000 + loader_start, loader_start, loader_size)`; relocated
self-test store; `switch_to_rust(0x10000)`. -/
def cmainTrace (addr : Nat) (img : Mem) : CmainTrace :=
  let s := cmainScan img
  let bytes := itoaOut addr ++ (if s.boundHit then [80, 111, 111, 112] else []) ++
    postScanBytes s.loader_start s.loader_end
  let w := writeSeq 0xb8000 bytes
  let size := u32sub s.loader_end s.loader_start
  { diagBytes := bytes
    diagWrites := w.2
    scan := s
    copyDest := 0x10000 + s.loader_start
    copySrc := s.loader_start
    copyLen := size
    postMem := memcpy img (0x10000 + s.loader_start) s.loader_start size
    selfTestWrite := (w.1, 113)
    handoffArg := 0x10000 }

/-! ## Concrete images for witnesses -/

/-- Image with the start sentinel at offset 4 and the end sentinel at
offset 12, zero elsewhere. -/
def imgC1 : Mem := fun a =>
  if a = 4 then 0x21 else if a = 5 then 0x73 else
  if a = 12 then 0xbe else if a = 13 then 0xef else 0

/-- Image with the start sentinel at offset 10 and the end sentinel at
offset 90, zero elsewhere. -/
def imgTen : Mem := fun a =>
  if a = 10 then 0x21 else if a = 11 then 0x73 else
  if a = 90 then 0xbe else if a = 91 then 0xef else 0

/-- Image whose only sentinel is an end sentinel at offset 50. -/
def imgFifty : Mem := fun a =>
  if a = 50 then 0xbe else if a = 51 then 0xef else 0

/-- Image with a start sentinel at offset 5 and no end sentinel at all. -/
def imgStartOnly : Mem := fun a =>
  if a = 5 then 0x21 else if a = 6 then 0x73 else 0

/-- Image whose end sentinel sits exactly at offset 0xFFFF. -/
def imgEdge : Mem := fun a =>
  if a = 0xFFFF then 0xbe else if a = 0x10000 then 0xef else 0

/-- Image with an end sentinel at offset 0, for small diagnostic traces. -/
def imgE0 : Mem := fun a =>
  if a = 0 then 0xbe else if a = 1 then 0xef else 0

/-- A concrete source memory for copy witnesses. -/
def memW : Mem := fun a => a % 251

/-! ## Scan-loop characterization -/

/-- Peeling the last processed offset off the `loader_start` fold. -/
theorem lsRun_succ (img : Mem) (ls i k : Nat) :
    lsRun img ls i (k + 1) =
      if startMatch img (i + k) then i + k else lsRun img ls i k := by
  induction k generalizing ls i with
  | zero => simp [lsRun]
  | succ k ih =>
    rw [lsRun, ih, lsRun]
    have h : i + 1 + k = i + (k + 1) := by omega
    rw [h]

/-- The fold over offsets `0..e` starting from 0 is `lastStartLe`. -/
theorem lsRun_eq_lastStartLe (img : Mem) (e : Nat) :
    lsRun img 0 0 (e + 1) = lastStartLe img e := by
  induction e with
  | zero => simp [lsRun, lastStartLe]
  | succ e ih =>
    rw [lsRun_succ, lastStartLe, Nat.zero_add, ih]

/-- If the first end-sentinel match while scanning from `i` is at `i + k`
(within the bound) and enough fuel remains, the loop stops there with
`loader_start` folded over the processed offsets. -/
theorem scanLoop_end (img : Mem) :
    ∀ k i ls fuel : Nat, endMatch img (i + k) = true →
    (∀ j, j < k → endMatch img (i + j) = false) →
    i + k ≤ 0xFFFF → k < fuel →
    scanLoop img i ls fuel = ⟨lsRun img ls i (k + 1), i + k, false⟩ := by
  intro k
  induction k with
  | zero =>
    intro i ls fuel he _ _ hf
    obtain ⟨f, rfl⟩ : ∃ f, fuel = f + 1 := ⟨fuel - 1, by omega⟩
    rw [scanLoop]
    simp only [Nat.add_zero] at he
    simp [he, lsRun]
  | succ k ih =>
    intro i ls fuel he hno hb hf
    obtain ⟨f, rfl⟩ : ∃ f, fuel = f + 1 := ⟨fuel - 1, by omega⟩
    rw [scanLoop]
    have h0 : endMatch img i = false := by simpa using hno 0 (by omega)
    have hlt : ¬ i ≥ 0xFFFF := by omega
    simp only [h0, Bool.false_eq_true, if_false, hlt]
    have he' : endMatch img (i + 1 + k) = true := by
      have h : i + 1 + k = i + (k + 1) := by omega
      rw [h]; exact he
    have hno' : ∀ j, j < k → endMatch img (i + 1 + j) = false := by
      intro j hj
      have h : i + 1 + j = i + (j + 1) := by omega
      rw [h]; exact hno (j + 1) (by omega)
    rw [ih (i + 1) _ f he' hno' (by omega) (by omega)]
    conv_rhs => rw [lsRun]
    have h : i + 1 + k = i + (k + 1) := by omega
    rw [h]

/-- `cmainScan` on an image whose first end-sentinel match is at `e ≤ 0xFFFF`:
the scan stops at `e` with `loader_start = lastStartLe img e`. -/
theorem cmainScan_first_end (img : Mem) (e : Nat) (he : endMatch img e = true)
    (hfirst : ∀ i, i < e → endMatch img i = false) (hb : e ≤ 0xFFFF) :
    cmainScan img = ⟨lastStartLe img e, e, false⟩ := by
  have h := scanLoop_end img e 0 0 (2 ^ 16) (by simpa using he)
    (fun j hj => by simpa using hfirst j hj) (by omega) (by omega)
  rw [cmainScan, h]
  simp [lsRun_eq_lastStartLe]

/-- With no end-sentinel match up to the bound, the loop runs through all of
its fuel (one offset per unit) and exits through the `i >= 0xFFFF` branch. -/
theorem scanLoop_noEnd (img : Mem)
    (hno : ∀ j, j ≤ 0xFFFF → endMatch img j = false) :
    ∀ fuel i ls : Nat, i + fuel = 2 ^ 16 →
    scanLoop img i ls fuel = ⟨lsRun img ls i fuel, 0, true⟩ := by
  intro fuel
  induction fuel with
  | zero => intro i ls _; rw [scanLoop, lsRun]
  | succ f ih =>
    intro i ls hi
    rw [scanLoop]
    have hie : endMatch img i = false := hno i (by omega)
    by_cases hbound : i ≥ 0xFFFF
    · have hf0 : f = 0 := by omega
      subst hf0
      simp [hie, hbound, lsRun]
    · simp only [hie, Bool.false_eq_true, if_false, hbound]
      rw [ih (i + 1) _ (by omega), lsRun]

/-- `cmainScan` on an image with no end sentinel within the bound: the abort
branch fires, `loader_end` keeps its initial 0, and `loader_start` holds the
last start match over offsets `0..0xFFFF`. -/
theorem cmainScan_bound (img : Mem)
    (hno : ∀ j, j ≤ 0xFFFF → endMatch img j = false) :
    cmainScan img = ⟨lastStartLe img 0xFFFF, 0, true⟩ := by
  have h := scanLoop_noEnd img hno (2 ^ 16) 0 0 (by omega)
  rw [cmainScan, h]
  have h2 : (2 : Nat) ^ 16 = 0xFFFF + 1 := by norm_num
  rw [h2, lsRun_eq_lastStartLe]

/-- `lastStartLe` is the spec's "last offset `≤ e` at which a start sentinel
matched" (or 0 when none matched). -/
theorem lastStartLe_isLast (img : Mem) (e : Nat) :
    IsLastStart img e (lastStartLe img e) := by
  induction e with
  | zero =>
    cases h : startMatch img 0 with
    | true =>
      left
      exact ⟨h, Nat.le_refl 0, fun j hj _ => hj⟩
    | false =>
      right
      refine ⟨fun j hj => ?_, rfl⟩
      have hj0 : j = 0 := by omega
      rw [hj0]
      exact h
  | succ e ih =>
    cases h : startMatch img (e + 1) with
    | true =>
      left
      have hL : lastStartLe img (e + 1) = e + 1 := by rw [lastStartLe, if_pos h]
      rw [hL]
      exact ⟨h, Nat.le_refl _, fun j hj _ => hj⟩
    | false =>
      have hL : lastStartLe img (e + 1) = lastStartLe img e := by
        rw [lastStartLe, if_neg (by simp [h])]
      rw [hL]
      rcases ih with ⟨h1, h2, h3⟩ | ⟨h1, h2⟩
      · left
        refine ⟨h1, by omega, fun j hj hsj => ?_⟩
        rcases Nat.lt_or_ge j (e + 1) with hlt | hge
        · exact h3 j (by omega) hsj
        · exfalso
          have hje : j = e + 1 := by omega
          rw [hje] at hsj
          rw [h] at hsj
          exact Bool.false_ne_true hsj
      · right
        refine ⟨fun j hj => ?_, h2⟩
        rcases Nat.lt_or_ge j (e + 1) with hlt | hge
        · exact h1 j (by omega)
        · have hje : j = e + 1 := by omega
          rw [hje]
          exact h

/-- No start match up to `e` leaves `loader_start` at its initial 0. -/
theorem lastStartLe_none (img : Mem) (e : Nat)
    (h : ∀ j, j ≤ e → startMatch img j = false) : lastStartLe img e = 0 := by
  induction e with
  | zero => rfl
  | succ e ih =>
    rw [lastStartLe]
    simp only [h (e + 1) (Nat.le_refl _), Bool.false_eq_true, if_false]
    exact ih (fun j hj => h j (by omega))

/-- Offsets past `k` with no start match do not move `loader_start`. -/
theorem lastStartLe_stable (img : Mem) (k : Nat) :
    ∀ e, k ≤ e → (∀ j, k < j → j ≤ e → startMatch img j = false) →
    lastStartLe img e = lastStartLe img k := by
  intro e
  induction e with
  | zero => intro hke _; have h : k = 0 := by omega
            subst h; rfl
  | succ e ih =>
    intro hke h
    rcases Nat.eq_or_lt_of_le hke with heq | hlt
    · rw [heq]
    · rw [lastStartLe]
      simp only [h (e + 1) (by omega) (Nat.le_refl _), Bool.false_eq_true, if_false]
      exact ih (by omega) (fun j h1 h2 => h j h1 (by omega))

/-- A start match at `k` itself pins `lastStartLe img k = k`. -/
theorem lastStartLe_of_match (img : Mem) (k : Nat)
    (h : startMatch img k = true) : lastStartLe img k = k := by
  cases k with
  | zero => rfl
  | succ n => rw [lastStartLe]; simp [h]

/-- A start match at `k` followed by no further start matches up to `e`
makes `k` the recorded `loader_start` after offsets `0..e`. -/
theorem lastStartLe_eq_single (img : Mem) (k e : Nat)
    (hk : startMatch img k = true) (hke : k ≤ e)
    (h : ∀ j, k < j → j ≤ e → startMatch img j = false) :
    lastStartLe img e = k := by
  rw [lastStartLe_stable img k e hke h, lastStartLe_of_match img k hk]

/-! ## memcpy -/

/-- Addresses outside the destination range are untouched by `memcpy`. -/
theorem memcpy_outside (m : Mem) (dest src : Nat) :
    ∀ n a, a < dest ∨ dest + n ≤ a → memcpy m dest src n a = m a := by
  intro n
  induction n with
  | zero => intro a _; rfl
  | succ n ih =>
    intro a ha
    have h : memcpy m dest src (n + 1) a =
        updB (memcpy m dest src n) (dest + n) (memcpy m dest src n (src + n)) a := rfl
    rw [h]
    simp only [updB]
    rw [if_neg (show a ≠ dest + n by omega)]
    exact ih a (by omega)

/-- On disjoint ranges, the forward byte loop of `memcpy` reproduces the
original source bytes at the destination. -/
theorem memcpy_copies (m : Mem) (dest src : Nat) :
    ∀ n, src + n ≤ dest ∨ dest + n ≤ src →
    ∀ j, j < n → memcpy m dest src n (dest + j) = m (src + j) := by
  intro n
  induction n with
  | zero => intro _ j hj; exact absurd hj (by omega)
  | succ n ih =>
    intro hdisj j hj
    have h : memcpy m dest src (n + 1) (dest + j) =
        updB (memcpy m dest src n) (dest + n) (memcpy m dest src n (src + n)) (dest + j) := rfl
    rw [h]
    simp only [updB]
    by_cases hje : j = n
    · rw [hje, if_pos rfl]
      exact memcpy_outside m dest src n (src + n) (by omega)
    · rw [if_neg (show dest + j ≠ dest + n by omega)]
      exact ih (by omega) j (by omega)

/-! ## VGA write sequence -/

/-- The cursor after emitting `bs` has advanced by 2 per byte. -/
theorem writeSeq_fst (bs : List Nat) :
    ∀ cur, (writeSeq cur bs).1 = cur + 2 * bs.length := by
  induction bs with
  | nil => intro cur; simp [writeSeq]
  | cons b bs ih =>
    intro cur
    show (writeSeq (cur + 2) bs).1 = cur + 2 * (b :: bs).length
    rw [ih]
    simp only [List.length_cons]
    omega

/-- The store addresses of an emission are `cur + 2, cur + 4, ...`:
a fixed 2-byte stride starting right after the current cursor. -/
theorem writeSeq_addrs (bs : List Nat) :
    ∀ cur, (writeSeq cur bs).2.map Prod.fst =
      (List.range bs.length).map (fun k => cur + 2 * (k + 1)) := by
  induction bs with
  | nil => intro cur; rfl
  | cons b bs ih =>
    intro cur
    show (cur + 2) :: (writeSeq (cur + 2) bs).2.map Prod.fst = _
    rw [ih]
    simp only [List.length_cons, List.range_succ_eq_map, List.map_cons, List.map_map]
    refine congrArg₂ List.cons (by omega) ?_
    refine List.map_congr_left ?_
    intro a _
    simp only [Function.comp_apply]
    omega

/-! ## digit_count, itoa, and the decimal round trip -/

/-- The count accumulator of `digit_count`'s loop is additive. -/
theorem digit_count_loop_acc (num : Nat) :
    ∀ c, digit_count_loop num c = digit_count_loop num 0 + c := by
  induction num using Nat.strong_induction_on with
  | _ num ih =>
    intro c
    by_cases h : num = 0
    · rw [digit_count_loop, if_pos h, digit_count_loop, if_pos h]
      omega
    · have hlt : num / 10 < num := Nat.div_lt_self (Nat.pos_of_ne_zero h) (by decide)
      conv_lhs => rw [digit_count_loop]
      conv_rhs => rw [digit_count_loop]
      rw [if_neg h, if_neg h]
      rw [ih (num / 10) hlt (c + 1), ih (num / 10) hlt (0 + 1)]
      omega

/-- Recurrence of `digit_count` for numbers of at least two digits. -/
theorem digit_count_ten (num : Nat) (h : 10 ≤ num) :
    digit_count num = digit_count (num / 10) + 1 := by
  have h0 : num ≠ 0 := by omega
  have h10 : num / 10 ≠ 0 := by
    have h1 : 1 ≤ num / 10 := (Nat.one_le_div_iff (by decide)).mpr h
    omega
  rw [digit_count, if_neg h0, digit_count, if_neg h10]
  rw [digit_count_loop, if_neg h0]
  rw [digit_count_loop_acc (num / 10) (0 + 1)]

/-- One-digit numbers. -/
theorem digit_count_lt_ten (num : Nat) (h : num < 10) : digit_count num = 1 := by
  by_cases h0 : num = 0
  · rw [digit_count, if_pos h0]
  · rw [digit_count, if_neg h0, digit_count_loop, if_neg h0]
    have hdiv : num / 10 = 0 := Nat.div_eq_of_lt h
    rw [hdiv, digit_count_loop, if_pos rfl]

theorem digit_count_pos (num : Nat) : 1 ≤ digit_count num := by
  induction num using Nat.strong_induction_on with
  | _ num ih =>
    by_cases h : num < 10
    · rw [digit_count_lt_ten num h]
    · rw [digit_count_ten num (by omega)]
      omega

/-- `digit_count` is exact from above: `num < 10 ^ digit_count num`. -/
theorem lt_pow_digit_count (num : Nat) : num < 10 ^ digit_count num := by
  induction num using Nat.strong_induction_on with
  | _ num ih =>
    by_cases h : num < 10
    · rw [digit_count_lt_ten num h]
      simpa using h
    · rw [digit_count_ten num (by omega)]
      have h1 : num / 10 < 10 ^ digit_count (num / 10) :=
        ih (num / 10) (Nat.div_lt_self (by omega) (by decide))
      have h2 : num < 10 * (num / 10) + 10 := by
        have hdm := Nat.div_add_mod num 10
        have hm : num % 10 < 10 := Nat.mod_lt num (by decide)
        omega
      have h3 : 10 * (num / 10 + 1) ≤ 10 * 10 ^ digit_count (num / 10) :=
        Nat.mul_le_mul_left 10 (by omega)
      have hpow : 10 ^ (digit_count (num / 10) + 1) = 10 * 10 ^ digit_count (num / 10) :=
        pow_succ' 10 _
      omega

/-- `digit_count` bound from a power-of-ten bound on the input. -/
theorem digit_count_le (k : Nat) :
    ∀ num, 1 ≤ k → num < 10 ^ k → digit_count num ≤ k := by
  induction k with
  | zero => intro num h _; omega
  | succ k ih =>
    intro num _ h
    by_cases hsmall : num < 10
    · rw [digit_count_lt_ten num hsmall]
      omega
    · rw [digit_count_ten num (by omega)]
      have hk1 : 1 ≤ k := by
        by_contra hc
        have hk0 : k = 0 := by omega
        rw [hk0] at h
        norm_num at h
        omega
      have hdiv : num / 10 < 10 ^ k := by
        rw [Nat.div_lt_iff_lt_mul (by decide : 0 < 10)]
        calc num < 10 ^ (k + 1) := h
          _ = 10 ^ k * 10 := pow_succ 10 k
      have := ih (num / 10) hk1 hdiv
      omega

/-- Complete characterization of the digit loop of `itoa`: started at
`index = idx ≥ digit_count num - 1`, it stores the ASCII decimal digits of
`num` at positions `idx + 1 - digit_count num .. idx` (most significant
lowest) and touches nothing else. -/
theorem itoaLoop_spec (num : Nat) :
    ∀ idx buf p, num ≠ 0 → digit_count num - 1 ≤ idx →
    itoaLoop buf num idx p =
      if idx + 1 - digit_count num ≤ p ∧ p ≤ idx then
        num / 10 ^ (idx - p) % 10 + 48
      else buf p := by
  induction num using Nat.strong_induction_on with
  | _ num ih =>
    intro idx buf p h0 hidx
    rw [itoaLoop, if_neg h0]
    by_cases hsmall : num < 10
    · have hdc : digit_count num = 1 := digit_count_lt_ten num hsmall
      have hdiv : num / 10 = 0 := Nat.div_eq_of_lt hsmall
      rw [hdiv, itoaLoop, if_pos rfl]
      simp only [updB, hdc]
      by_cases hp : p = idx
      · rw [if_pos hp, if_pos (show idx + 1 - 1 ≤ p ∧ p ≤ idx by omega)]
        rw [hp, Nat.sub_self, pow_zero, Nat.div_one]
      · rw [if_neg hp, if_neg (show ¬(idx + 1 - 1 ≤ p ∧ p ≤ idx) by omega)]
    · have h10 : num / 10 ≠ 0 := by
        have h1 : 1 ≤ num / 10 := (Nat.one_le_div_iff (by decide)).mpr (by omega)
        omega
      have hdc : digit_count num = digit_count (num / 10) + 1 :=
        digit_count_ten num (by omega)
      have hdc1 : 1 ≤ digit_count (num / 10) := digit_count_pos _
      have hidx1 : 1 ≤ idx := by omega
      rw [ih (num / 10) (Nat.div_lt_self (by omega) (by decide)) (idx - 1) _ p h10 (by omega)]
      rw [hdc]
      by_cases hp : p = idx
      · rw [if_neg (show ¬(idx - 1 + 1 - digit_count (num / 10) ≤ p ∧ p ≤ idx - 1) by omega)]
        simp only [updB]
        rw [if_pos hp, if_pos (show idx + 1 - (digit_count (num / 10) + 1) ≤ p ∧ p ≤ idx by omega)]
        rw [hp, Nat.sub_self, pow_zero, Nat.div_one]
      · by_cases hin : idx - digit_count (num / 10) ≤ p ∧ p ≤ idx - 1
        · rw [if_pos (show idx - 1 + 1 - digit_count (num / 10) ≤ p ∧ p ≤ idx - 1 by omega)]
          rw [if_pos (show idx + 1 - (digit_count (num / 10) + 1) ≤ p ∧ p ≤ idx by omega)]
          have harith : num / 10 / 10 ^ (idx - 1 - p) = num / 10 ^ (idx - p) := by
            rw [Nat.div_div_eq_div_mul]
            have hexp : idx - p = (idx - 1 - p) + 1 := by omega
            rw [hexp, pow_succ' 10 (idx - 1 - p)]
          rw [harith]
        · rw [if_neg (show ¬(idx - 1 + 1 - digit_count (num / 10) ≤ p ∧ p ≤ idx - 1) by omega)]
          simp only [updB]
          rw [if_neg hp]
          rw [if_neg (show ¬(idx + 1 - (digit_count (num / 10) + 1) ≤ p ∧ p ≤ idx) by omega)]

/-- The buffer `itoa num` leaves behind on the zeroed `num_str`: ASCII digits
at `0 .. digit_count num - 1`, and 0 (in particular the null terminator at
position `digit_count num`) everywhere else. -/
theorem itoa_zeroBuf (num : Nat) (p : Nat) :
    itoa num zeroBuf p =
      if p < digit_count num then num / 10 ^ (digit_count num - 1 - p) % 10 + 48
      else 0 := by
  by_cases h0 : num = 0
  · have hdc : digit_count num = 1 := by rw [h0]; rfl
    rw [itoa, if_pos ⟨h0, hdc⟩, hdc]
    simp only [updB, zeroBuf]
    by_cases hp1 : p = 1
    · rw [if_pos hp1, if_neg (by omega)]
    · rw [if_neg hp1]
      by_cases hp0 : p = 0
      · rw [if_pos hp0, if_pos (by omega), h0, hp0]
        norm_num
      · rw [if_neg hp0, if_neg (by omega)]
  · rw [itoa, if_neg (by simp [h0])]
    simp only [updB]
    have hdc1 : 1 ≤ digit_count num := digit_count_pos num
    by_cases hpdc : p = digit_count num
    · rw [if_pos hpdc, if_neg (by omega)]
    · rw [if_neg hpdc]
      rw [itoaLoop_spec num (digit_count num - 1) zeroBuf p h0 (Nat.le_refl _)]
      by_cases hin : p < digit_count num
      · rw [if_pos (by omega), if_pos hin]
      · rw [if_neg (by omega), if_neg hin]
        rfl

/-- `strlenAux` finds the first null byte when it is within fuel reach. -/
theorem strlenAux_spec (buf : Mem) :
    ∀ len fuel i, len < fuel →
    (∀ j, j < len → buf (i + j) ≠ 0) → buf (i + len) = 0 →
    strlenAux buf i fuel = i + len := by
  intro len
  induction len with
  | zero =>
    intro fuel i hf _ h0
    obtain ⟨f, rfl⟩ : ∃ f, fuel = f + 1 := ⟨fuel - 1, by omega⟩
    rw [strlenAux, if_pos (by simpa using h0)]
    omega
  | succ len ih =>
    intro fuel i hf hne h0
    obtain ⟨f, rfl⟩ : ∃ f, fuel = f + 1 := ⟨fuel - 1, by omega⟩
    rw [strlenAux, if_neg (by simpa using hne 0 (by omega))]
    have hne' : ∀ j, j < len → buf (i + 1 + j) ≠ 0 := by
      intro j hj
      have h := hne (j + 1) (by omega)
      have he : i + (j + 1) = i + 1 + j := by omega
      rwa [he] at h
    have h0' : buf (i + 1 + len) = 0 := by
      have he : i + (len + 1) = i + 1 + len := by omega
      rwa [he] at h0
    rw [ih f (i + 1) (by omega) hne' h0']
    omega

/-- On a 32-bit value, `strlen` of the rendered buffer is the digit count. -/
theorem strlen_itoa (num : Nat) (h : num < 2 ^ 32) :
    strlen (itoa num zeroBuf) = digit_count num := by
  have h10 : num < 10 ^ 10 := by
    calc num < 2 ^ 32 := h
      _ ≤ 10 ^ 10 := by norm_num
  have hdc10 : digit_count num ≤ 10 := digit_count_le 10 num (by omega) h10
  have h1 : ∀ j, j < digit_count num → itoa num zeroBuf (0 + j) ≠ 0 := by
    intro j hj
    rw [Nat.zero_add, itoa_zeroBuf, if_pos hj]
    omega
  have h2 : itoa num zeroBuf (0 + digit_count num) = 0 := by
    rw [Nat.zero_add, itoa_zeroBuf, if_neg (by omega)]
  have hs := strlenAux_spec (itoa num zeroBuf) (digit_count num) 32 0 (by omega) h1 h2
  rw [strlen, hs]
  omega

/-- The printed character list for a 32-bit value: its ASCII decimal digits,
most significant first. -/
theorem itoaOut_digits (num : Nat) (h : num < 2 ^ 32) :
    itoaOut num = (List.range (digit_count num)).map
      (fun k => num / 10 ^ (digit_count num - 1 - k) % 10 + 48) := by
  rw [itoaOut, strlen_itoa num h]
  refine List.map_congr_left ?_
  intro k hk
  rw [List.mem_range] at hk
  rw [itoa_zeroBuf, if_pos hk]

/-- Folding the decimal parse over a fixed-width big-endian ASCII digit list
reconstructs the value modulo the width's power of ten. -/
theorem parseDec_digits (len : Nat) :
    ∀ acc num,
    ((List.range len).map (fun k => num / 10 ^ (len - 1 - k) % 10 + 48)).foldl
      (fun a d => a * 10 + (d - 48)) acc = acc * 10 ^ len + num % 10 ^ len := by
  induction len with
  | zero =>
    intro acc num
    simp [Nat.mod_one]
  | succ len ih =>
    intro acc num
    have hshift : (List.range len).map
        ((fun k => num / 10 ^ (len + 1 - 1 - k) % 10 + 48) ∘ Nat.succ) =
        (List.range len).map (fun k => num / 10 ^ (len - 1 - k) % 10 + 48) := by
      refine List.map_congr_left ?_
      intro a _
      simp only [Function.comp_apply]
      have he : len + 1 - 1 - (a + 1) = len - 1 - a := by omega
      rw [he]
    rw [List.range_succ_eq_map, List.map_cons, List.map_map, hshift, List.foldl_cons]
    rw [ih]
    have he0 : len + 1 - 1 - 0 = len := by omega
    simp only [he0]
    have hd : num / 10 ^ len % 10 + 48 - 48 = num / 10 ^ len % 10 := by omega
    rw [hd]
    have hmod : num % 10 ^ (len + 1) = num % 10 ^ len + 10 ^ len * (num / 10 ^ len % 10) := by
      rw [pow_succ]
      exact Nat.mod_mul
    rw [hmod, pow_succ]
    ring

/-- The decimal round trip: parsing the rendered digit string of any 32-bit
value gives the value back. -/
theorem parseDec_itoaOut (num : Nat) (h : num < 2 ^ 32) :
    parseDec (itoaOut num) = num := by
  rw [parseDec, itoaOut_digits num h, parseDec_digits (digit_count num) 0 num]
  have hlt := lt_pow_digit_count num
  rw [Nat.zero_mul, Nat.zero_add, Nat.mod_eq_of_lt hlt]

/-! ## Trace plumbing and witness-image facts -/

/-- The components of the `cmain` trace, unfolded. -/
theorem cmainTrace_fields (addr : Nat) (img : Mem) :
    (cmainTrace addr img).scan = cmainScan img ∧
    (cmainTrace addr img).copyDest = 0x10000 + (cmainScan img).loader_start ∧
    (cmainTrace addr img).copySrc = (cmainScan img).loader_start ∧
    (cmainTrace addr img).copyLen =
      u32sub (cmainScan img).loader_end (cmainScan img).loader_start ∧
    (cmainTrace addr img).postMem =
      memcpy img (0x10000 + (cmainScan img).loader_start) (cmainScan img).loader_start
        (u32sub (cmainScan img).loader_end (cmainScan img).loader_start) ∧
    (cmainTrace addr img).diagBytes = itoaOut addr ++
      (if (cmainScan img).boundHit then [80, 111, 111, 112] else []) ++
      postScanBytes (cmainScan img).loader_start (cmainScan img).loader_end ∧
    (cmainTrace addr img).handoffArg = 0x10000 :=
  ⟨rfl, rfl, rfl, rfl, rfl, rfl, rfl⟩

/-- The VGA stores of the trace come from one `writeSeq` emission. -/
theorem cmainTrace_writes (addr : Nat) (img : Mem) :
    (cmainTrace addr img).diagWrites =
      (writeSeq 0xb8000 (cmainTrace addr img).diagBytes).2 ∧
    (cmainTrace addr img).selfTestWrite =
      ((writeSeq 0xb8000 (cmainTrace addr img).diagBytes).1, 113) :=
  ⟨rfl, rfl⟩

/-- `loader_start` can never exceed the last scanned offset. -/
theorem scanLoop_ls_le (img : Mem) :
    ∀ fuel i ls, ls ≤ i → (scanLoop img i ls fuel).loader_start ≤ i + fuel := by
  intro fuel
  induction fuel with
  | zero =>
    intro i ls h
    rw [scanLoop]
    show ls ≤ i + 0
    omega
  | succ f ih =>
    intro i ls h
    rw [scanLoop]
    have hls : (if startMatch img i then i else ls) ≤ i := by
      split <;> omega
    by_cases hend : endMatch img i
    · rw [if_pos hend]
      show (if startMatch img i then i else ls) ≤ i + (f + 1)
      omega
    · rw [if_neg hend]
      by_cases hb : i ≥ 0xFFFF
      · rw [if_pos hb]
        show (if startMatch img i then i else ls) ≤ i + (f + 1)
        omega
      · rw [if_neg hb]
        have hrec := ih (i + 1) (if startMatch img i then i else ls) (by omega)
        omega

/-- `loader_start` of the whole scan is at most `2 ^ 16`. -/
theorem cmainScan_ls_le (img : Mem) : (cmainScan img).loader_start ≤ 2 ^ 16 := by
  have h := scanLoop_ls_le img (2 ^ 16) 0 0 (Nat.le_refl 0)
  rw [cmainScan]
  omega

/-- `imgStartOnly` has no end sentinel anywhere within the scan bound. -/
theorem imgStartOnly_noEnd : ∀ j, j ≤ 0xFFFF → endMatch imgStartOnly j = false := by
  intro j _
  simp only [endMatch, imgStartOnly]
  split_ifs <;> rfl

/-- The last (only) start match of `imgStartOnly` up to the bound is 5. -/
theorem imgStartOnly_ls : lastStartLe imgStartOnly 0xFFFF = 5 := by
  refine lastStartLe_eq_single imgStartOnly 5 0xFFFF (by decide) (by norm_num) ?_
  intro j h1 h2
  by_cases hj6 : j = 6
  · rw [hj6]
    decide
  · simp only [startMatch, imgStartOnly]
    rw [if_neg (show ¬ j = 5 by omega), if_neg hj6,
      if_neg (show ¬ j + 1 = 5 by omega), if_neg (show ¬ j + 1 = 6 by omega)]
    rfl

/-- The scan of `imgStartOnly` aborts at the bound with `(5, 0)` recorded. -/
theorem imgStartOnly_scan : cmainScan imgStartOnly = ⟨5, 0, true⟩ := by
  rw [cmainScan_bound imgStartOnly imgStartOnly_noEnd, imgStartOnly_ls]

theorem digit_count_four : digit_count 4 = 1 := by
  simp [digit_count, digit_count_loop]

theorem digit_count_twelve : digit_count 12 = 2 := by
  simp [digit_count, digit_count_loop]

theorem itoaOut_four : itoaOut 4 = [52] := by
  rw [itoaOut_digits 4 (by norm_num), digit_count_four]
  decide

theorem itoaOut_twelve : itoaOut 12 = [49, 50] := by
  rw [itoaOut_digits 12 (by norm_num), digit_count_twelve]
  decide

/-- The post-scan diagnostics for bounds `(4, 12)` read `"S: 4  E: 12  "`. -/
theorem postScanBytes_c1 : postScanBytes 4 12 = byteStr "S: 4  E: 12  " := by
  rw [postScanBytes, itoaOut_four, itoaOut_twelve]
  decide

/-! ## Claims -/

/-- C1: for every memory image with the start sentinel at offset 4, the end
sentinel at offset 12, and no other sentinel match at or before offset 12,
the stage's scan yields `(loader_start, loader_end) = (4, 12)`, the relocator
copies exactly 8 bytes from offset 4 to address 0x10004 (and the copied bytes
equal the source bytes), and the diagnostic characters written after the scan
read exactly "S: 4  E: 12  ". -/
theorem c1_end_to_end (addr : Nat) (img : Mem)
    (hs : startMatch img 4 = true)
    (hns : ∀ i, i ≤ 12 → i ≠ 4 → startMatch img i = false)
    (he : endMatch img 12 = true)
    (hne : ∀ i, i < 12 → endMatch img i = false) :
    (cmainTrace addr img).scan = ⟨4, 12, false⟩ ∧
    (cmainTrace addr img).copyLen = 8 ∧
    (cmainTrace addr img).copyDest = 0x10004 ∧
    (cmainTrace addr img).copySrc = 4 ∧
    (∀ j, j < 8 → (cmainTrace addr img).postMem (0x10004 + j) = img (4 + j)) ∧
    (cmainTrace addr img).diagBytes = itoaOut addr ++ byteStr "S: 4  E: 12  " := by
  have hscan : cmainScan img = ⟨4, 12, false⟩ := by
    rw [cmainScan_first_end img 12 he hne (by norm_num),
      lastStartLe_eq_single img 4 12 hs (by norm_num)
        (fun j h1 h2 => hns j h2 (by omega))]
  obtain ⟨hsc, hcd, hcs, hcl, hpm, hdb, _⟩ := cmainTrace_fields addr img
  have hu : u32sub 12 4 = 8 := by decide
  refine ⟨by rw [hsc, hscan], ?_, ?_, ?_, ?_, ?_⟩
  · rw [hcl, hscan]
    exact hu
  · rw [hcd, hscan]
    rfl
  · rw [hcs, hscan]
  · intro j hj
    rw [hpm, hscan]
    show memcpy img (0x10000 + 4) 4 (u32sub 12 4) (0x10004 + j) = img (4 + j)
    rw [hu]
    exact memcpy_copies img (0x10000 + 4) 4 8 (Or.inl (by norm_num)) j hj
  · rw [hdb, hscan]
    show itoaOut addr ++ [] ++ postScanBytes 4 12 = itoaOut addr ++ byteStr "S: 4  E: 12  "
    rw [postScanBytes_c1, List.append_nil]

/-- C1 witness: a concrete image with the sentinels at offsets 4 and 12. -/
theorem c1_end_to_end_witness :
    (cmainTrace 7 imgC1).scan = ⟨4, 12, false⟩ ∧
    (cmainTrace 7 imgC1).copyLen = 8 ∧ (cmainTrace 7 imgC1).copyDest = 0x10004 := by
  have h := c1_end_to_end 7 imgC1 (by decide) (by decide) (by decide) (by decide)
  exact ⟨h.1, h.2.1, h.2.2.1⟩

/-- C2: on every image whose first end-sentinel match is at offset `e` within
the scan bound, the scanner stops there (no bound abort), returns
`loader_end = e`, and returns as `loader_start` the last offset `≤ e` at
which a start sentinel matched (0 when none did): later start matches
overwrite earlier ones and scanning stops only at the first end match. -/
theorem c2_scan_general (img : Mem) (e : Nat) (he : endMatch img e = true)
    (hfirst : ∀ i, i < e → endMatch img i = false) (hb : e ≤ 0xFFFF) :
    cmainScan img = ⟨lastStartLe img e, e, false⟩ ∧
    IsLastStart img e (lastStartLe img e) :=
  ⟨cmainScan_first_end img e he hfirst hb, lastStartLe_isLast img e⟩

/-- C2 witness: start sentinel at offset 10 and end sentinel at offset 90
yield `(10, 90)`. -/
theorem c2_scan_general_witness : cmainScan imgTen = ⟨10, 90, false⟩ := by
  have h := c2_scan_general imgTen 90 (by decide) (by decide) (by decide)
  rw [h.1, (by decide : lastStartLe imgTen 90 = 10)]

/-- C3: when no end sentinel occurs within the scan bound, the scan aborts
through the `i >= 0xFFFF` branch: the fixed token "Poop" is emitted into the
diagnostic stream, and execution still proceeds into the bounds diagnostics
and the relocation request using the last recorded `loader_start` (the last
start match, 0 when none) and `loader_end = 0`; the handoff argument is still
produced, so the bound hit is not a terminal failure state. -/
theorem c3_bound_abort (addr : Nat) (img : Mem)
    (hno : ∀ j, j ≤ 0xFFFF → endMatch img j = false) :
    (cmainTrace addr img).scan = ⟨lastStartLe img 0xFFFF, 0, true⟩ ∧
    (cmainTrace addr img).diagBytes =
      itoaOut addr ++ byteStr "Poop" ++ postScanBytes (lastStartLe img 0xFFFF) 0 ∧
    (cmainTrace addr img).copyDest = 0x10000 + lastStartLe img 0xFFFF ∧
    (cmainTrace addr img).copySrc = lastStartLe img 0xFFFF ∧
    (cmainTrace addr img).copyLen = u32sub 0 (lastStartLe img 0xFFFF) ∧
    (cmainTrace addr img).handoffArg = 0x10000 := by
  have hscan := cmainScan_bound img hno
  obtain ⟨hsc, hcd, hcs, hcl, hpm, hdb, hha⟩ := cmainTrace_fields addr img
  refine ⟨by rw [hsc, hscan], ?_, by rw [hcd, hscan], by rw [hcs, hscan],
    by rw [hcl, hscan], hha⟩
  rw [hdb, hscan, (by decide : byteStr "Poop" = [80, 111, 111, 112])]
  rfl

/-- C3 witness: an image with one start sentinel at offset 5 and no end
sentinel aborts at the bound and falls through with `(5, 0)`. -/
theorem c3_bound_abort_witness :
    (cmainTrace 3 imgStartOnly).scan = ⟨5, 0, true⟩ ∧
    (cmainTrace 3 imgStartOnly).copyDest = 0x10005 := by
  have h := c3_bound_abort 3 imgStartOnly imgStartOnly_noEnd
  rw [imgStartOnly_ls] at h
  exact ⟨h.1, h.2.2.1⟩

/-- C4: an end match with no preceding (or simultaneous) start match is not
rejected: the scanner silently returns `loader_start = 0` with the end
offset; an image whose only sentinel is an end sentinel at offset 50 scans
to `(0, 50)`. -/
theorem c4_end_before_start (img : Mem)
    (he : endMatch img 50 = true)
    (hne : ∀ i, i < 50 → endMatch img i = false)
    (hns : ∀ i, i ≤ 50 → startMatch img i = false) :
    cmainScan img = ⟨0, 50, false⟩ := by
  rw [cmainScan_first_end img 50 he hne (by norm_num), lastStartLe_none img 50 hns]

/-- C4 witness: the concrete end-sentinel-only image. -/
theorem c4_end_before_start_witness : cmainScan imgFifty = ⟨0, 50, false⟩ :=
  c4_end_before_start imgFifty (by decide) (by decide) (by decide)

/-- C5: the relocation copy length is the unguarded wrapping 32-bit
subtraction `loader_end - loader_start`, requested from `memcpy` with
destination `0x10000 + loader_start`; whenever `loader_end < loader_start`
the length equals `loader_end + 2^32 - loader_start`, a huge value. -/
theorem c5_size_wrap (addr : Nat) (img : Mem) :
    (cmainTrace addr img).copyLen =
      u32sub (cmainScan img).loader_end (cmainScan img).loader_start ∧
    (cmainTrace addr img).copyDest = 0x10000 + (cmainScan img).loader_start ∧
    (cmainTrace addr img).copySrc = (cmainScan img).loader_start ∧
    ((cmainScan img).loader_end < (cmainScan img).loader_start →
      (cmainTrace addr img).copyLen =
        (cmainScan img).loader_end + 2 ^ 32 - (cmainScan img).loader_start) := by
  obtain ⟨hsc, hcd, hcs, hcl, hpm, hdb, hha⟩ := cmainTrace_fields addr img
  refine ⟨hcl, hcd, hcs, fun hlt => ?_⟩
  rw [hcl, u32sub]
  have hls := cmainScan_ls_le img
  have h16 : (2 : Nat) ^ 16 = 65536 := by norm_num
  have h32 : (2 : Nat) ^ 32 = 4294967296 := by norm_num
  rw [Nat.mod_eq_of_lt (by omega)]

/-- C5 witness: after the bound abort on `imgStartOnly`, the scan records
`(5, 0)` and the requested copy length wraps to `2^32 - 5`. -/
theorem c5_size_wrap_witness : (cmainTrace 0 imgStartOnly).copyLen = 4294967291 := by
  have h := (c5_size_wrap 0 imgStartOnly).2.2.2
  rw [imgStartOnly_scan] at h
  have h2 := h (by decide)
  rw [h2]
  decide

/-- C6: for every byte count and disjoint source/destination ranges, the
forward byte-copy loop of `memcpy` makes the destination reproduce the
original source bytes and leaves everything outside the destination range
untouched; in particular the relocator's copies (destination
`0x10000 + loader_start`, source `loader_start`) of any payload size up to
`0x10000` — covering sizes 0, 1 and 1024 — leave the destination
byte-identical to the original source. -/
theorem c6_memcpy_correct (m : Mem) (dest src n : Nat)
    (hdisj : src + n ≤ dest ∨ dest + n ≤ src) :
    (∀ j, j < n → memcpy m dest src n (dest + j) = m (src + j)) ∧
    (∀ a, a < dest ∨ dest + n ≤ a → memcpy m dest src n a = m a) ∧
    (∀ ls k, k ≤ 0x10000 → ∀ j, j < k →
      memcpy m (0x10000 + ls) ls k (0x10000 + ls + j) = m (ls + j)) :=
  ⟨memcpy_copies m dest src n hdisj,
    fun a ha => memcpy_outside m dest src n a ha,
    fun ls k hk j hj =>
      memcpy_copies m (0x10000 + ls) ls k (Or.inl (by omega)) j hj⟩

/-- C6 witness: a concrete 3-byte copy across disjoint ranges. -/
theorem c6_memcpy_correct_witness :
    memcpy memW 70000 0 3 (70000 + 1) = memW (0 + 1) :=
  (c6_memcpy_correct memW 70000 0 3 (Or.inl (by norm_num))).1 1 (by norm_num)

/-- C7: `itoa` renders the unsigned decimal ASCII form of its 32-bit input
followed by a null terminator: rendering 0 gives "0", rendering 4294967295
gives "4294967295", and for each of {0, 1, 9, 10, 999, 4294967295} parsing
the rendered string back as unsigned decimal reproduces the input. -/
theorem c7_decimal_render (num : Nat) (h : num < 2 ^ 32) :
    itoa num zeroBuf (strlen (itoa num zeroBuf)) = 0 ∧
    parseDec (itoaOut num) = num ∧
    itoaOut 0 = byteStr "0" ∧
    itoaOut 4294967295 = byteStr "4294967295" ∧
    parseDec (itoaOut 0) = 0 ∧ parseDec (itoaOut 1) = 1 ∧
    parseDec (itoaOut 9) = 9 ∧ parseDec (itoaOut 10) = 10 ∧
    parseDec (itoaOut 999) = 999 ∧
    parseDec (itoaOut 4294967295) = 4294967295 := by
  refine ⟨?_, parseDec_itoaOut num h, by decide, ?_,
    parseDec_itoaOut 0 (by norm_num), parseDec_itoaOut 1 (by norm_num),
    parseDec_itoaOut 9 (by norm_num), parseDec_itoaOut 10 (by norm_num),
    parseDec_itoaOut 999 (by norm_num), parseDec_itoaOut 4294967295 (by norm_num)⟩
  · rw [strlen_itoa num h, itoa_zeroBuf, if_neg (by omega)]
  · rw [itoaOut_digits 4294967295 (by norm_num),
      (by simp [digit_count, digit_count_loop] : digit_count 4294967295 = 10)]
    decide

/-- C7 witness: the round trip at 999. -/
theorem c7_decimal_render_witness : parseDec (itoaOut 999) = 999 :=
  (c7_decimal_render 999 (by norm_num)).2.1

/-- C8: the 32-bit entry argument is diagnostic-only: two runs over the same
image that differ only in the argument have identical scan results, identical
relocation requests and relocated memory, and both pass exactly 0x10000 as
the sole argument of the external second-stage entry point; the diagnostic
streams agree except for the argument's own rendering at the front. -/
theorem c8_entry_arg_diagnostic_only (a1 a2 : Nat) (img : Mem) :
    (cmainTrace a1 img).scan = (cmainTrace a2 img).scan ∧
    (cmainTrace a1 img).copyDest = (cmainTrace a2 img).copyDest ∧
    (cmainTrace a1 img).copySrc = (cmainTrace a2 img).copySrc ∧
    (cmainTrace a1 img).copyLen = (cmainTrace a2 img).copyLen ∧
    (cmainTrace a1 img).postMem = (cmainTrace a2 img).postMem ∧
    (cmainTrace a1 img).handoffArg = 0x10000 ∧
    (cmainTrace a2 img).handoffArg = 0x10000 ∧
    (cmainTrace a1 img).diagBytes.drop (itoaOut a1).length =
      (cmainTrace a2 img).diagBytes.drop (itoaOut a2).length := by
  refine ⟨rfl, rfl, rfl, rfl, rfl, rfl, rfl, ?_⟩
  obtain ⟨_, _, _, _, _, hdb1, _⟩ := cmainTrace_fields a1 img
  obtain ⟨_, _, _, _, _, hdb2, _⟩ := cmainTrace_fields a2 img
  rw [hdb1, hdb2, List.append_assoc, List.append_assoc,
    List.drop_left, List.drop_left]

/-- C8 witness: concrete arguments 0 and 123456 over `imgE0`. -/
theorem c8_entry_arg_diagnostic_only_witness :
    (cmainTrace 0 imgE0).scan = (cmainTrace 123456 imgE0).scan ∧
    (cmainTrace 0 imgE0).handoffArg = 0x10000 :=
  ⟨(c8_entry_arg_diagnostic_only 0 123456 imgE0).1,
    (c8_entry_arg_diagnostic_only 0 123456 imgE0).2.2.2.2.2.1⟩

/-- C9: every diagnostic character store goes to `0xb8000 + 2 * (k + 1)` for
consecutive `k` — a fixed 2-byte stride advancing one cursor that never wraps
or resets — and every store of the stage (including the relocated self-test's
store, which lands on the final cursor) has even offset, so the interleaved
attribute bytes of the text-mode layout are never written. -/
theorem c9_vga_stride (addr : Nat) (img : Mem) :
    (cmainTrace addr img).diagWrites.map Prod.fst =
      (List.range (cmainTrace addr img).diagBytes.length).map
        (fun k => 0xb8000 + 2 * (k + 1)) ∧
    (cmainTrace addr img).selfTestWrite.1 =
      0xb8000 + 2 * (cmainTrace addr img).diagBytes.length ∧
    (∀ p, p ∈ (cmainTrace addr img).diagWrites → p.1 % 2 = 0) ∧
    (cmainTrace addr img).selfTestWrite.1 % 2 = 0 := by
  obtain ⟨hw, hst⟩ := cmainTrace_writes addr img
  have haddrs := writeSeq_addrs (cmainTrace addr img).diagBytes 0xb8000
  have hfst := writeSeq_fst (cmainTrace addr img).diagBytes 0xb8000
  have h1 : (cmainTrace addr img).diagWrites.map Prod.fst =
      (List.range (cmainTrace addr img).diagBytes.length).map
        (fun k => 0xb8000 + 2 * (k + 1)) := by
    rw [hw, haddrs]
  have h2 : (cmainTrace addr img).selfTestWrite.1 =
      0xb8000 + 2 * (cmainTrace addr img).diagBytes.length := by
    rw [hst, hfst]
  refine ⟨h1, h2, ?_, by rw [h2]; omega⟩
  intro p hp
  have hm : p.1 ∈ (cmainTrace addr img).diagWrites.map Prod.fst :=
    List.mem_map_of_mem Prod.fst hp
  rw [h1, List.mem_map] at hm
  obtain ⟨k, _, hkeq⟩ := hm
  omega

/-- C9 witness: the self-test store position and parity on a concrete run. -/
theorem c9_vga_stride_witness :
    (cmainTrace 0 imgE0).selfTestWrite.1 =
      0xb8000 + 2 * (cmainTrace 0 imgE0).diagBytes.length ∧
    (cmainTrace 0 imgE0).selfTestWrite.1 % 2 = 0 :=
  ⟨(c9_vga_stride 0 imgE0).2.1, (c9_vga_stride 0 imgE0).2.2.2⟩

/-- C10: the `i >= 0xFFFF` bound check runs after the sentinel tests of the
iteration, so offset 0xFFFF itself is still examined: an image whose first
end sentinel sits exactly at offset 0xFFFF scans successfully to
`loader_end = 0xFFFF` instead of aborting at the bound. -/
theorem c10_bound_checked_after_tests (img : Mem)
    (he : endMatch img 0xFFFF = true)
    (hfirst : ∀ i, i < 0xFFFF → endMatch img i = false) :
    cmainScan img = ⟨lastStartLe img 0xFFFF, 0xFFFF, false⟩ :=
  cmainScan_first_end img 0xFFFF he hfirst (Nat.le_refl _)

/-- C10 witness: the concrete image with the end sentinel at 0xFFFF. -/
theorem c10_bound_checked_after_tests_witness :
    cmainScan imgEdge = ⟨0, 0xFFFF, false⟩ := by
  have hfirst : ∀ i, i < 0xFFFF → endMatch imgEdge i = false := by
    intro i hi
    simp only [endMatch, imgEdge]
    rw [if_neg (show ¬ i = 0xFFFF by omega), if_neg (show ¬ i = 0x10000 by omega)]
    simp
  have hns : ∀ j, j ≤ 0xFFFF → startMatch imgEdge j = false := by
    intro j _
    simp only [startMatch, imgEdge]
    split_ifs <;> rfl
  have h := c10_bound_checked_after_tests imgEdge (by decide) hfirst
  rw [h, lastStartLe_none imgEdge 0xFFFF hns]

end QuantumBoot
